import Mathlib

/-!
# Verification of the declarative-compute execution-strategy dispatcher

Shallow embedding of `src/include/declarative_compute.hpp` (namespace
`declarative`): the sequential, parallel and adaptive processing strategies,
the chunk partitioner of the parallel loop, and the public `process` dispatch.

Modelling conventions:
* A user transformation that may throw is `α → Except String β`
  (`Except.error e` models `throw`, with `e` the `e.what()` string).
* `std::vector` is `List`; indexed assignment `v[j] = y` is `List.set j y`;
  `resize(N)` value-initialization is `List.replicate N default`.
* Machine `size_t` arithmetic is `Nat` (no overflow is reachable here).
* Hardware concurrency (`std::thread::hardware_concurrency()`) is an explicit
  environment parameter `C : Nat`.
* Wall-clock timing (`execution_time_ms`) is not modelled.
* In `process_parallel`, when `threads_used = 0` (empty input or
  `max_threads = 0`) the C++ source evaluates `input.size() / 0`:
  integer division by zero, undefined behavior.  The embedding returns
  `none` in that case; every defined execution returns `some` record.
* In the C++ parallel path, each partition task runs under `std::async` and
  the code only calls `future.wait()`, never `future.get()`; `wait()` does
  not rethrow the stored exception, so a failure inside a task aborts that
  task's remaining writes but is otherwise silently discarded.  The embedding
  mirrors this: `runTask` stops at the first failing element and no error is
  recorded by the parallel strategy.
-/

namespace DeclarativeCompute

/-- `enum class MemoryPolicy` of the source. -/
inductive MemoryPolicy
  | Standard | Pooled | Preallocated | ZeroCopy
deriving DecidableEq

/-- `enum class ConcurrencyPolicy` of the source. -/
inductive ConcurrencyPolicy
  | Sequential | Parallel | Adaptive | ThreadPool
deriving DecidableEq

/-- `enum class SafetyPolicy` of the source. -/
inductive SafetyPolicy
  | Minimal | Standard | Guaranteed | ThreadSafe
deriving DecidableEq

/-- `struct ProcessConfig`.  `max_threads` has no fixed default here because
its C++ default is `std::thread::hardware_concurrency()`, an environment
value; `defaultConfig C` below builds the default record for a machine with
`C` hardware threads. -/
structure ProcessConfig where
  memory : MemoryPolicy := MemoryPolicy.Standard
  concurrency : ConcurrencyPolicy := ConcurrencyPolicy.Adaptive
  safety : SafetyPolicy := SafetyPolicy.Standard
  max_threads : Nat
  chunk_size : Nat := 1000
  enable_logging : Bool := false
deriving DecidableEq

/-- The default-constructed `ProcessConfig` on a machine whose
`std::thread::hardware_concurrency()` is `C`. -/
def defaultConfig (C : Nat) : ProcessConfig :=
  { max_threads := C }

/-- `struct ProcessResult<T>` (the field `execution_time_ms` carries
wall-clock time and is not modelled). -/
structure ProcessResult (β : Type) where
  results : List β := []
  items_processed : Nat := 0
  threads_used : Nat := 0
  memory_allocated : Nat := 0
  success : Bool := true
  error_message : String := ""
deriving DecidableEq

/-- The sequential `try` loop: apply `func` to each element in input order,
collecting outputs with `push_back` until the first failure; returns the
outputs produced so far and the error of the first failing element, if any. -/
def runSeq (func : α → Except String β) : List α → List β × Option String
  | [] => ([], none)
  | x :: xs =>
    match func x with
    | Except.error e => ([], some e)
    | Except.ok y =>
      let r := runSeq func xs
      (y :: r.1, r.2)

/-- `process_sequential` of the source.  Note that `items_processed` is
assigned only after the whole loop succeeds; in the `catch` branch it keeps
its initializer value `0`. -/
def process_sequential (input : List α) (func : α → Except String β)
    (_config : ProcessConfig) : ProcessResult β :=
  let r := runSeq func input
  match r.2 with
  | none =>
    { results := r.1, items_processed := input.length, threads_used := 1,
      success := true, error_message := "" }
  | some e =>
    { results := r.1, items_processed := 0, threads_used := 1,
      success := false, error_message := e }

/-- The start indices of the chunks created by the parallel loop
`for (i = 0; i < N; i += chunk)`, written with explicit recursion fuel
(every use has `chunk ≥ 1`, so fuel `N` is always sufficient). -/
def partitionStartsAux (N chunk : Nat) : Nat → Nat → List Nat
  | 0, _ => []
  | fuel + 1, i =>
    if i < N then i :: partitionStartsAux N chunk fuel (i + chunk) else []

/-- Start indices `0, chunk, 2*chunk, …` of the parallel loop's chunks. -/
def partitionStarts (N chunk : Nat) : List Nat :=
  partitionStartsAux N chunk N 0

/-- The index range `[s, min (s+chunk) N)` handled by the task submitted for
the chunk starting at `s` (the inner `for (j = i; j < end; ++j)` loop). -/
def taskIndices (N chunk s : Nat) : List Nat :=
  List.range' s (min (s + chunk) N - s)

/-- The half-open partition ranges the parallel strategy creates for input
length `N` and worker count `W`: chunk size `max 1 (N / W)`, chunk starting
at `i` covering `[i, min (i + chunk) N)`. -/
def partitions (N W : Nat) : List (Nat × Nat) :=
  (partitionStarts N (max 1 (N / W))).map
    (fun i => (i, min (i + max 1 (N / W)) N))

/-- One partition task: writes `func input[j]` into output slot `j` for each
`j` of its index range, in order, aborting the rest of the partition at the
first failure (the exception escapes the task lambda into the future's
shared state and is never rethrown, because the code calls `wait()`). -/
def runTask [Inhabited α] (input : List α) (func : α → Except String β) :
    List Nat → List β → List β
  | [], arr => arr
  | j :: js, arr =>
    match func (input.getD j default) with
    | Except.ok y => runTask input func js (arr.set j y)
    | Except.error _ => arr

/-- Runs the partition tasks for the given list of chunk starts over the
pre-sized output sequence.  The source waits on every future, so all tasks
run; the list order of `starts` stands for the order in which the scheduler
happens to run them. -/
def runTasks [Inhabited α] (input : List α) (func : α → Except String β)
    (chunk : Nat) (starts : List Nat) (arr : List β) : List β :=
  starts.foldl
    (fun a s => runTask input func (taskIndices input.length chunk s) a) arr

/-- `process_parallel` of the source.  `threads_used = min max_threads N`;
when that is `0` the chunk-size expression `input.size() / result.threads_used`
divides by zero (undefined behavior), modelled as `none`.  Transform failures
inside tasks are swallowed (see module docstring), so every defined run
reports `success = true` and `items_processed = N`. -/
def process_parallel [Inhabited α] [Inhabited β] (input : List α)
    (func : α → Except String β) (config : ProcessConfig) :
    Option (ProcessResult β) :=
  let N := input.length
  let W := min config.max_threads N
  if W = 0 then
    none
  else
    let chunk := max 1 (N / W)
    let final := runTasks input func chunk (partitionStarts N chunk)
      (List.replicate N (default : β))
    some { results := final, items_processed := N, threads_used := W,
           success := true, error_message := "" }

/-- `process_adaptive` of the source: the decision rules over input length
and hardware concurrency `C` (`PARALLEL_THRESHOLD = 1000`, `CORES = C`). -/
def process_adaptive [Inhabited α] [Inhabited β] (C : Nat) (input : List α)
    (func : α → Except String β) (config : ProcessConfig) :
    Option (ProcessResult β) :=
  if input.length < 1000 then
    some (process_sequential input func config)
  else if 1000 ≤ input.length ∧ 1 < C then
    process_parallel input func config
  else
    some (process_sequential input func config)

/-- The public entry point `declarative::process(input, config, func)`:
switch on the declared concurrency policy. -/
def process [Inhabited α] [Inhabited β] (C : Nat) (input : List α)
    (config : ProcessConfig) (func : α → Except String β) :
    Option (ProcessResult β) :=
  match config.concurrency with
  | ConcurrencyPolicy.Sequential => some (process_sequential input func config)
  | ConcurrencyPolicy.Parallel => process_parallel input func config
  | ConcurrencyPolicy.ThreadPool => process_parallel input func config
  | ConcurrencyPolicy.Adaptive => process_adaptive C input func config

/-- The simplified overload `declarative::process(input, func)`: default
configuration on a machine with hardware concurrency `C`. -/
def processDefault [Inhabited α] [Inhabited β] (C : Nat) (input : List α)
    (func : α → Except String β) : Option (ProcessResult β) :=
  process C input (defaultConfig C) func

/-- The throwing transformation of the source's error-handling example
(`example_usage.cpp`, EXAMPLE 7): `100 / x`, throwing
`std::runtime_error("Division by zero")` at `x = 0`; doubles are modelled
as rationals. -/
def div100 : ℚ → Except String ℚ :=
  fun x => if x = 0 then Except.error "Division by zero" else Except.ok (100 / x)

/-- The squaring transformation of the source's basic example. -/
def square : ℤ → Except String ℤ := fun x => Except.ok (x * x)

/-- The input `[1, 2, 3, 4, 5, 0, 7, 8]` of the error-handling example. -/
def input8 : List ℚ := [1, 2, 3, 4, 5, 0, 7, 8]

/-- The input `[1, …, 10000]` of the basic example. -/
def input10000 : List ℤ := (List.range 10000).map (fun (i : ℕ) => (i : ℤ) + 1)

/-- A one-thousand-element input, exactly at the adaptive parallel threshold. -/
def input1000 : List ℤ := List.replicate 1000 1

/-- A configuration declaring the Sequential policy with `max_threads = 4`. -/
def cfgSequential4 : ProcessConfig :=
  { concurrency := ConcurrencyPolicy.Sequential, max_threads := 4 }

/-- A configuration declaring the Parallel policy with `max_threads = 4`. -/
def cfgParallel4 : ProcessConfig :=
  { concurrency := ConcurrencyPolicy.Parallel, max_threads := 4 }

/-- A configuration declaring the Adaptive policy with `max_threads = 1`. -/
def cfgAdaptiveMt1 : ProcessConfig :=
  { concurrency := ConcurrencyPolicy.Adaptive, max_threads := 1 }

/-- A configuration with the given concurrency policy and declared worker
maximum (all other fields at their source defaults). -/
def cfgWith (p : ConcurrencyPolicy) (mt : Nat) : ProcessConfig :=
  { concurrency := p, max_threads := mt }

-- ============================================================
-- Helper lemmas
-- ============================================================

theorem runSeq_ok {func : α → Except String β} {F : α → β} :
    ∀ {input : List α}, (∀ x ∈ input, func x = Except.ok (F x)) →
      runSeq func input = (input.map F, none)
  | [], _ => rfl
  | x :: xs, h => by
    have hx : func x = Except.ok (F x) := h x (List.mem_cons_self x xs)
    have ih : runSeq func xs = (xs.map F, none) :=
      runSeq_ok (fun y hy => h y (List.mem_cons_of_mem x hy))
    simp [runSeq, hx, ih]

theorem runSeq_err {func : α → Except String β} {F : α → β} {x : α} {e : String}
    (hx : func x = Except.error e) :
    ∀ (pre : List α) (suf : List α), (∀ y ∈ pre, func y = Except.ok (F y)) →
      runSeq func (pre ++ x :: suf) = (pre.map F, some e)
  | [], suf, _ => by simp [runSeq, hx]
  | y :: pre, suf, h => by
    have hy : func y = Except.ok (F y) := h y (List.mem_cons_self y pre)
    have ih : runSeq func (pre ++ x :: suf) = (pre.map F, some e) :=
      runSeq_err hx pre suf (fun z hz => h z (List.mem_cons_of_mem y hz))
    simp [runSeq, hy, ih]

theorem runSeq_none_length {func : α → Except String β} :
    ∀ {input : List α}, (runSeq func input).2 = none →
      (runSeq func input).1.length = input.length
  | [], _ => rfl
  | x :: xs, h => by
    cases hfx : func x with
    | error e => simp [runSeq, hfx] at h
    | ok y =>
      simp only [runSeq, hfx] at h ⊢
      exact congrArg Nat.succ (runSeq_none_length h)

theorem partitionStartsAux_nil {N chunk : Nat} :
    ∀ (fuel i : Nat), N ≤ i → partitionStartsAux N chunk fuel i = []
  | 0, _, _ => rfl
  | fuel + 1, i, h => by simp [partitionStartsAux, Nat.not_lt.mpr h]

theorem mem_partitionStartsAux {N chunk : Nat} :
    ∀ {fuel i s : Nat}, s ∈ partitionStartsAux N chunk fuel i → i ≤ s ∧ s < N := by
  intro fuel
  induction fuel with
  | zero => intro i s hs; simp [partitionStartsAux] at hs
  | succ fuel ih =>
    intro i s hs
    by_cases hi : i < N
    · simp only [partitionStartsAux, if_pos hi, List.mem_cons] at hs
      rcases hs with rfl | hs
      · exact ⟨Nat.le_refl s, hi⟩
      · have := ih hs
        omega
    · simp [partitionStartsAux, if_neg hi] at hs

theorem partitionStartsAux_pairwise {N chunk : Nat} :
    ∀ (fuel i : Nat),
      List.Pairwise (fun a b => a + chunk ≤ b) (partitionStartsAux N chunk fuel i) := by
  intro fuel
  induction fuel with
  | zero => intro i; simp [partitionStartsAux]
  | succ fuel ih =>
    intro i
    by_cases hi : i < N
    · simp only [partitionStartsAux, if_pos hi]
      refine List.Pairwise.cons ?_ (ih (i + chunk))
      intro s hs
      have := mem_partitionStartsAux hs
      omega
    · simp [partitionStartsAux, if_neg hi]

theorem partitionStartsAux_cover {N chunk : Nat} :
    ∀ (fuel i j : Nat), i ≤ j → j < N → N ≤ i + fuel * chunk →
      ∃ s ∈ partitionStartsAux N chunk fuel i, s ≤ j ∧ j < s + chunk := by
  intro fuel
  induction fuel with
  | zero => intro i j hij hjN hfuel; omega
  | succ fuel ih =>
    intro i j hij hjN hfuel
    have hi : i < N := Nat.lt_of_le_of_lt hij hjN
    simp only [partitionStartsAux, if_pos hi]
    by_cases hjc : j < i + chunk
    · exact ⟨i, List.mem_cons_self _ _, hij, hjc⟩
    · have hij' : i + chunk ≤ j := Nat.le_of_not_lt hjc
      have hfuel' : N ≤ i + chunk + fuel * chunk := by
        have : (fuel + 1) * chunk = fuel * chunk + chunk := Nat.succ_mul fuel chunk
        omega
      obtain ⟨s, hs, h1, h2⟩ := ih (i + chunk) j hij' hjN hfuel'
      exact ⟨s, List.mem_cons_of_mem _ hs, h1, h2⟩

theorem partitionStartsAux_length {N chunk : Nat} (hc : 0 < chunk) :
    ∀ (fuel i : Nat), N ≤ i + fuel * chunk →
      (partitionStartsAux N chunk fuel i).length = (N - i + chunk - 1) / chunk := by
  intro fuel
  induction fuel with
  | zero =>
    intro i hfuel
    have : N - i = 0 := by omega
    simp [partitionStartsAux, this, Nat.div_eq_of_lt (by omega : chunk - 1 < chunk)]
  | succ fuel ih =>
    intro i hfuel
    by_cases hi : i < N
    · simp only [partitionStartsAux, if_pos hi, List.length_cons]
      by_cases hlast : N ≤ i + chunk
      · have hrest : partitionStartsAux N chunk fuel (i + chunk) = [] :=
          partitionStartsAux_nil fuel (i + chunk) hlast
        have hdiv : (N - i + chunk - 1) / chunk = 1 := by
          apply Nat.div_eq_of_lt_le
          · omega
          · omega
        simp [hrest, hdiv]
      · have hfuel' : N ≤ i + chunk + fuel * chunk := by
          have : (fuel + 1) * chunk = fuel * chunk + chunk := Nat.succ_mul fuel chunk
          omega
        rw [ih (i + chunk) hfuel']
        have hsplit : N - i + chunk - 1 = (N - (i + chunk) + chunk - 1) + chunk := by
          omega
        rw [hsplit, Nat.add_div_right _ hc]
    · have : N - i = 0 := by omega
      simp [partitionStartsAux, if_neg hi, this,
        Nat.div_eq_of_lt (by omega : chunk - 1 < chunk)]

theorem partitionStartsAux_getLast {N chunk : Nat} :
    ∀ (fuel i : Nat), i < N → N ≤ i + fuel * chunk →
      ∃ s, (partitionStartsAux N chunk fuel i).getLast? = some s ∧
        s < N ∧ N ≤ s + chunk := by
  intro fuel
  induction fuel with
  | zero => intro i hi hfuel; omega
  | succ fuel ih =>
    intro i hi hfuel
    simp only [partitionStartsAux, if_pos hi]
    by_cases hlast : N ≤ i + chunk
    · have hrest : partitionStartsAux N chunk fuel (i + chunk) = [] :=
        partitionStartsAux_nil fuel (i + chunk) hlast
      exact ⟨i, by simp [hrest], hi, hlast⟩
    · have hi' : i + chunk < N := Nat.lt_of_not_le hlast
      have hfuel' : N ≤ i + chunk + fuel * chunk := by
        have : (fuel + 1) * chunk = fuel * chunk + chunk := Nat.succ_mul fuel chunk
        omega
      obtain ⟨s, hs, h1, h2⟩ := ih (i + chunk) hi' hfuel'
      refine ⟨s, ?_, h1, h2⟩
      cases hfe : fuel with
      | zero => subst hfe; omega
      | succ fuel' =>
        subst hfe
        simp only [partitionStartsAux, if_pos hi'] at hs ⊢
        rw [List.getLast?_cons_cons]
        exact hs

theorem partitionStartsAux_chain' {N chunk : Nat} :
    ∀ (fuel i : Nat),
      List.Chain' (fun a b => b = a + chunk ∧ b < N)
        (partitionStartsAux N chunk fuel i) := by
  intro fuel
  induction fuel with
  | zero => intro i; simp [partitionStartsAux]
  | succ fuel ih =>
    intro i
    by_cases hi : i < N
    · simp only [partitionStartsAux, if_pos hi]
      rw [List.chain'_cons']
      refine ⟨?_, ih (i + chunk)⟩
      intro b hb
      cases hfe : fuel with
      | zero => simp [hfe, partitionStartsAux] at hb
      | succ fuel' =>
        subst hfe
        by_cases hic : i + chunk < N
        · simp only [partitionStartsAux, if_pos hic, List.head?_cons,
            Option.mem_def, Option.some.injEq] at hb
          omega
        · simp [partitionStartsAux, if_neg hic] at hb
    · simp [partitionStartsAux, if_neg hi]

theorem partitionStarts_fuel {N chunk : Nat} (hc : 0 < chunk) :
    N ≤ 0 + N * chunk := by
  have : N * 1 ≤ N * chunk := Nat.mul_le_mul_left N hc
  omega

theorem mem_partitionStarts {N chunk s : Nat} (hs : s ∈ partitionStarts N chunk) :
    s < N :=
  (mem_partitionStartsAux hs).2

theorem partitionStarts_pairwise {N chunk : Nat} :
    List.Pairwise (fun a b => a + chunk ≤ b) (partitionStarts N chunk) :=
  partitionStartsAux_pairwise N 0

theorem partitionStarts_cover {N chunk j : Nat} (hc : 0 < chunk) (hj : j < N) :
    ∃ s ∈ partitionStarts N chunk, s ≤ j ∧ j < s + chunk :=
  partitionStartsAux_cover N 0 j (Nat.zero_le j) hj (partitionStarts_fuel hc)

theorem partitionStarts_length {N chunk : Nat} (hc : 0 < chunk) :
    (partitionStarts N chunk).length = (N + chunk - 1) / chunk := by
  have := partitionStartsAux_length hc N 0 (partitionStarts_fuel hc)
  simpa [partitionStarts] using this

theorem partitionStarts_getLast {N chunk : Nat} (hc : 0 < chunk) (hN : 0 < N) :
    ∃ s, (partitionStarts N chunk).getLast? = some s ∧ s < N ∧ N ≤ s + chunk :=
  partitionStartsAux_getLast N 0 hN (partitionStarts_fuel hc)

theorem partitionStarts_chain' {N chunk : Nat} :
    List.Chain' (fun a b => b = a + chunk ∧ b < N) (partitionStarts N chunk) :=
  partitionStartsAux_chain' N 0

theorem partitionStarts_head {N chunk : Nat} (hN : 0 < N) :
    (partitionStarts N chunk).head? = some 0 := by
  unfold partitionStarts
  cases N with
  | zero => omega
  | succ n => simp [partitionStartsAux, hN]

theorem mem_taskIndices {N chunk s j : Nat} (hj : j ∈ taskIndices N chunk s) :
    s ≤ j ∧ j < s + chunk ∧ j < N := by
  rw [taskIndices, List.mem_range'_1] at hj
  omega

theorem mem_taskIndices_of {N chunk s j : Nat} (h1 : s ≤ j) (h2 : j < s + chunk)
    (h3 : j < N) : j ∈ taskIndices N chunk s := by
  rw [taskIndices, List.mem_range'_1]
  omega

theorem taskIndices_nodup {N chunk s : Nat} : (taskIndices N chunk s).Nodup :=
  List.nodup_range' s _

theorem runTask_length [Inhabited α] {input : List α} {func : α → Except String β} :
    ∀ (js : List Nat) (arr : List β), (runTask input func js arr).length = arr.length
  | [], arr => rfl
  | j :: js, arr => by
    cases hf : func (input.getD j default) with
    | ok y =>
      simp only [runTask, hf]
      rw [runTask_length js]
      exact List.length_set arr j y
    | error e => simp only [runTask, hf]

theorem runTask_getElem?_not_mem [Inhabited α] {input : List α}
    {func : α → Except String β} :
    ∀ {js : List Nat} (arr : List β) {j : Nat}, j ∉ js →
      (runTask input func js arr)[j]? = arr[j]?
  | [], arr, j, _ => rfl
  | i :: js, arr, j, hj => by
    have hij : i ≠ j := fun h => hj (h ▸ List.mem_cons_self i js)
    have hjs : j ∉ js := fun h => hj (List.mem_cons_of_mem i h)
    cases hf : func (input.getD i default) with
    | ok y =>
      simp only [runTask, hf]
      rw [runTask_getElem?_not_mem _ hjs, List.getElem?_set_ne hij]
    | error e => simp only [runTask, hf]

theorem runTask_getElem?_ok [Inhabited α] {input : List α}
    {func : α → Except String β} {F : Nat → β} :
    ∀ {js : List Nat} (arr : List β) {j : Nat}, js.Nodup →
      (∀ i ∈ js, func (input.getD i default) = Except.ok (F i)) →
      j ∈ js → j < arr.length →
      (runTask input func js arr)[j]? = some (F j)
  | [], arr, j, _, _, hj, _ => absurd hj (List.not_mem_nil j)
  | i :: js, arr, j, hnd, hok, hj, hlen => by
    have hfi : func (input.getD i default) = Except.ok (F i) :=
      hok i (List.mem_cons_self i js)
    simp only [runTask, hfi]
    rcases List.mem_cons.mp hj with rfl | hj'
    · have hnotin : j ∉ js := (List.nodup_cons.mp hnd).1
      rw [runTask_getElem?_not_mem _ hnotin]
      exact List.getElem?_set_self hlen
    · have hne : j ≠ i := fun h => (List.nodup_cons.mp hnd).1 (h ▸ hj')
      refine runTask_getElem?_ok _ (List.nodup_cons.mp hnd).2
        (fun k hk => hok k (List.mem_cons_of_mem i hk)) hj' ?_
      simpa using hlen

theorem runTasks_length [Inhabited α] {input : List α}
    {func : α → Except String β} {chunk : Nat} :
    ∀ (starts : List Nat) (arr : List β),
      (runTasks input func chunk starts arr).length = arr.length
  | [], arr => rfl
  | s :: starts, arr => by
    rw [runTasks, List.foldl_cons, ← runTasks]
    rw [runTasks_length starts]
    exact runTask_length _ arr

theorem runTasks_getElem?_not_mem [Inhabited α] {input : List α}
    {func : α → Except String β} {chunk : Nat} :
    ∀ {starts : List Nat} (arr : List β) {j : Nat},
      (∀ s ∈ starts, j ∉ taskIndices input.length chunk s) →
      (runTasks input func chunk starts arr)[j]? = arr[j]?
  | [], arr, j, _ => rfl
  | s :: starts, arr, j, h => by
    rw [runTasks, List.foldl_cons, ← runTasks]
    rw [runTasks_getElem?_not_mem _ (fun t ht => h t (List.mem_cons_of_mem s ht))]
    exact runTask_getElem?_not_mem _ (h s (List.mem_cons_self s starts))

theorem runTasks_getElem?_ok [Inhabited α] {input : List α}
    {func : α → Except String β} {chunk : Nat} {F : Nat → β} :
    ∀ {starts : List Nat} (arr : List β) {j : Nat},
      List.Pairwise
        (fun a b => ∀ x, ¬(x ∈ taskIndices input.length chunk a ∧
          x ∈ taskIndices input.length chunk b)) starts →
      (∀ i, i < input.length → func (input.getD i default) = Except.ok (F i)) →
      (∃ s ∈ starts, j ∈ taskIndices input.length chunk s) →
      j < arr.length →
      (runTasks input func chunk starts arr)[j]? = some (F j)
  | [], _, j, _, _, hex, _ => by simp at hex
  | s :: starts, arr, j, hpw, hok, hex, hlen => by
    obtain ⟨hhead, htail⟩ := List.pairwise_cons.mp hpw
    rw [runTasks, List.foldl_cons, ← runTasks]
    obtain ⟨t, ht, hjt⟩ := hex
    rcases List.mem_cons.mp ht with rfl | ht'
    · have hnot : ∀ u ∈ starts, j ∉ taskIndices input.length chunk u :=
        fun u hu hju => hhead u hu j ⟨hjt, hju⟩
      rw [runTasks_getElem?_not_mem _ hnot]
      exact runTask_getElem?_ok _ taskIndices_nodup
        (fun i hi => hok i (mem_taskIndices hi).2.2) hjt hlen
    · have hjs : j ∉ taskIndices input.length chunk s :=
        fun hjs => hhead t ht' j ⟨hjs, hjt⟩
      refine runTasks_getElem?_ok _ htail hok ⟨t, ht', hjt⟩ ?_
      rw [runTask_length]
      exact hlen

/-- Scheduling-independent correctness of the parallel fan-out: if the
transformation succeeds on every element, then running the partition tasks
in any order the scheduler may choose (any permutation of the chunk list)
fills the pre-sized output with `func` of the input at every index. -/

theorem runTasks_perm_map [Inhabited α] [Inhabited β] {input : List α}
    {func : α → Except String β} {F : α → β} {chunk : Nat}
    (hok : ∀ x ∈ input, func x = Except.ok (F x)) (hc : 0 < chunk)
    {starts : List Nat} (hperm : starts.Perm (partitionStarts input.length chunk)) :
    runTasks input func chunk starts (List.replicate input.length (default : β)) =
      input.map F := by
  set N := input.length with hN
  have hFidx : ∀ i, i < N → func (input.getD i default) = Except.ok (F (input.getD i default)) := by
    intro i hi
    exact hok _ (by rw [List.getD_eq_getElem _ _ hi]; exact List.getElem_mem hi)
  have hdisj :
      List.Pairwise
        (fun a b => ∀ x, ¬(x ∈ taskIndices N chunk a ∧ x ∈ taskIndices N chunk b))
        (partitionStarts N chunk) := by
    refine partitionStarts_pairwise.imp ?_
    intro a b hab x ⟨hxa, hxb⟩
    have h1 := mem_taskIndices hxa
    have h2 := mem_taskIndices hxb
    omega
  have hsymm : Symmetric
      (fun a b => ∀ x, ¬(x ∈ taskIndices N chunk a ∧ x ∈ taskIndices N chunk b)) := by
    intro a b h x ⟨hxb, hxa⟩
    exact h x ⟨hxa, hxb⟩
  have hdisj' := (hperm.pairwise_iff (fun h => hsymm h)).mpr hdisj
  apply List.ext_getElem?
  intro j
  by_cases hj : j < N
  · have hcov : ∃ s ∈ starts, j ∈ taskIndices N chunk s := by
      obtain ⟨s, hs, h1, h2⟩ := partitionStarts_cover hc hj
      exact ⟨s, hperm.mem_iff.mpr hs, mem_taskIndices_of h1 h2 hj⟩
    have hlen : j < (List.replicate N (default : β)).length := by
      simpa using hj
    rw [runTasks_getElem?_ok _ hdisj' hFidx hcov hlen]
    rw [List.getElem?_map, List.getElem?_eq_getElem hj]
    simp [List.getElem?_eq_getElem hj]
  · have h1 : (runTasks input func chunk starts
        (List.replicate N (default : β)))[j]? = none := by
      apply List.getElem?_eq_none
      rw [runTasks_length]
      simpa using Nat.le_of_not_lt hj
    have h2 : (input.map F)[j]? = none := by
      apply List.getElem?_eq_none
      simpa using Nat.le_of_not_lt hj
    rw [h1, h2]

/-- The sequential strategy always reports one worker. -/
theorem process_sequential_threads_used {input : List α}
    {func : α → Except String β} (config : ProcessConfig) :
    (process_sequential input func config).threads_used = 1 := by
  rcases hr : runSeq func input with ⟨outs, err⟩
  unfold process_sequential
  rw [hr]
  cases err with
  | none => rfl
  | some e => rfl

/-- A fully successful sequential call: the whole record. -/
theorem process_sequential_ok {input : List α} {func : α → Except String β}
    {F : α → β} (config : ProcessConfig)
    (hok : ∀ x ∈ input, func x = Except.ok (F x)) :
    process_sequential input func config =
      { results := input.map F, items_processed := input.length,
        threads_used := 1, memory_allocated := 0, success := true,
        error_message := "" } := by
  unfold process_sequential
  rw [runSeq_ok hok]

/-- A sequential call whose transformation first fails at the element `x`
(after the clean prefix `pre`): the whole record.  `items_processed` stays
at its initializer `0` because the source assigns it only after the loop. -/
theorem process_sequential_err {func : α → Except String β} {F : α → β}
    {x : α} {e : String} (pre suf : List α) (config : ProcessConfig)
    (hpre : ∀ y ∈ pre, func y = Except.ok (F y))
    (hx : func x = Except.error e) :
    process_sequential (pre ++ x :: suf) func config =
      { results := pre.map F, items_processed := 0, threads_used := 1,
        memory_allocated := 0, success := false, error_message := e } := by
  unfold process_sequential
  rw [runSeq_err hx pre suf hpre]

/-- Whenever a sequential call reports success, it processed every element
and produced one output per input element. -/
theorem process_sequential_success_inv {input : List α}
    {func : α → Except String β} {config : ProcessConfig}
    (h : (process_sequential input func config).success = true) :
    (process_sequential input func config).items_processed = input.length ∧
      (process_sequential input func config).results.length = input.length := by
  have hl : (runSeq func input).2 = none →
      (runSeq func input).1.length = input.length := runSeq_none_length
  rcases hr : runSeq func input with ⟨outs, err⟩
  rw [hr] at hl
  unfold process_sequential at h ⊢
  rw [hr] at h ⊢
  cases err with
  | none => exact ⟨rfl, hl rfl⟩
  | some e => exact absurd h (by simp)

/-- A defined parallel call (`threads_used ≠ 0`) with an everywhere-succeeding
transformation: the whole record. -/
theorem process_parallel_ok [Inhabited α] [Inhabited β] {input : List α}
    {func : α → Except String β} {F : α → β} {config : ProcessConfig}
    (hok : ∀ x ∈ input, func x = Except.ok (F x))
    (hW : min config.max_threads input.length ≠ 0) :
    process_parallel input func config =
      some { results := input.map F, items_processed := input.length,
             threads_used := min config.max_threads input.length,
             memory_allocated := 0, success := true, error_message := "" } := by
  unfold process_parallel
  rw [if_neg hW]
  have hc : 0 < max 1 (input.length / min config.max_threads input.length) :=
    Nat.lt_of_lt_of_le Nat.zero_lt_one (Nat.le_max_left _ _)
  simp only []
  rw [runTasks_perm_map hok hc (List.Perm.refl _)]

/-- A parallel call with `min max_threads N = 0` divides by zero. -/
theorem process_parallel_none [Inhabited α] [Inhabited β] {input : List α}
    {func : α → Except String β} {config : ProcessConfig}
    (hW : min config.max_threads input.length = 0) :
    process_parallel input func config = none := by
  unfold process_parallel
  rw [if_pos hW]

/-- Every record a parallel call returns has `items_processed = N` and one
output slot per input element (regardless of failures, which it swallows). -/
theorem process_parallel_some_inv [Inhabited α] [Inhabited β] {input : List α}
    {func : α → Except String β} {config : ProcessConfig} {r : ProcessResult β}
    (h : process_parallel input func config = some r) :
    r.items_processed = input.length ∧ r.results.length = input.length := by
  unfold process_parallel at h
  by_cases hW : min config.max_threads input.length = 0
  · rw [if_pos hW] at h
    exact absurd h (by simp)
  · rw [if_neg hW] at h
    have := Option.some.inj h
    subst this
    refine ⟨rfl, ?_⟩
    show (runTasks input func _ _ _).length = input.length
    rw [runTasks_length]
    exact List.length_replicate _ _

/-- The record a defined parallel call returns, failures or not: `success`
is always `true` and `items_processed` is always the input length, because
the `catch` in the source is unreachable from transform failures. -/
theorem process_parallel_eq_of_ne_zero [Inhabited α] [Inhabited β]
    {input : List α} {func : α → Except String β} {config : ProcessConfig}
    (hW : min config.max_threads input.length ≠ 0) :
    process_parallel input func config =
      some { results := runTasks input func
               (max 1 (input.length / min config.max_threads input.length))
               (partitionStarts input.length
                 (max 1 (input.length / min config.max_threads input.length)))
               (List.replicate input.length (default : β)),
             items_processed := input.length,
             threads_used := min config.max_threads input.length,
             memory_allocated := 0, success := true, error_message := "" } := by
  unfold process_parallel
  rw [if_neg hW]


-- ============================================================
-- Claim theorems
-- ============================================================

/-- C1: the claim says a parallel call whose transformation fails on some
element waits for all tasks and then reports `success = false` with the
failing partition's error.  The code does wait on every future, but it
calls `future.wait()`, which never rethrows the exception stored by
`std::async`; the `catch` block is unreachable from transform failures, so
the call reports `success = true`, `items_processed = N` and an empty error
message.  Concretely, on input `[0]` with the throwing `100 / x`
transformation of the source's own error-handling example, the Parallel
policy returns a fully successful record (the failed slot keeps its
value-initialized `0`). -/
theorem parallel_swallows_failure :
    div100 0 = Except.error "Division by zero" ∧
    process 4 [(0 : ℚ)] cfgParallel4 div100 =
      some { results := [0], items_processed := 1, threads_used := 1,
             memory_allocated := 0, success := true, error_message := "" } := by
  constructor
  · rfl
  · decide

/-- C2 counterexample: the claim (and the spec scenario) says that on input
`[1,2,3,4,5,0,7,8]` with the failing `100 / x` transformation the sequential
strategy reports `items_processed = 5`.  The source assigns
`result.items_processed` only after the whole loop, so in the `catch` branch
it keeps its initializer `0`. -/
theorem sequential_failure_items_cex :
    (process_sequential input8 div100 (defaultConfig 4)).items_processed = 0 ∧
      (process_sequential input8 div100 (defaultConfig 4)).items_processed ≠ 5 := by
  constructor
  · decide
  · decide

/-- C2 amended: when the transformation first fails at index `k` (clean
prefix `pre`, `k = pre.length`), the sequential strategy records the error,
returns exactly the first `k` transformed results, `success = false` and
`threads_used = 1` — but `items_processed = 0`, not `k`.  In the spec's
scenario the output is `[100, 50, 100/3, 25, 20]` (the spec's `33.33` is the
two-decimal display of `100/3`) and `items_processed = 0`, not `5`. -/
theorem sequential_failure_spec :
    (∀ {α β : Type} (pre suf : List α) (x : α) (func : α → Except String β)
      (F : α → β) (e : String) (config : ProcessConfig),
      (∀ y ∈ pre, func y = Except.ok (F y)) → func x = Except.error e →
      process_sequential (pre ++ x :: suf) func config =
        { results := pre.map F, items_processed := 0, threads_used := 1,
          memory_allocated := 0, success := false, error_message := e }) ∧
    process_sequential input8 div100 (defaultConfig 4) =
      { results := [100, 50, 100 / 3, 25, 20], items_processed := 0,
        threads_used := 1, memory_allocated := 0, success := false,
        error_message := "Division by zero" } := by
  constructor
  · intro α β pre suf x func F e config hpre hx
    exact process_sequential_err pre suf config hpre hx
  · have hx : div100 0 = Except.error "Division by zero" := rfl
    have hpre : ∀ y ∈ [(1 : ℚ), 2, 3, 4, 5],
        div100 y = Except.ok ((fun y => (100 : ℚ) / y) y) := by
      intro y hy
      fin_cases hy <;> rfl
    have h := process_sequential_err [(1 : ℚ), 2, 3, 4, 5] [7, 8]
      (defaultConfig 4) hpre hx
    rw [show input8 = [(1 : ℚ), 2, 3, 4, 5] ++ (0 : ℚ) :: [7, 8] from rfl, h]
    norm_num

/-- C2 amended, witness: the general statement applied to the concrete
decomposition `[1] ++ 0 :: []` of a failing input. -/
theorem sequential_failure_spec_witness :
    process_sequential ([(1 : ℚ)] ++ 0 :: []) div100 (defaultConfig 4) =
      { results := [(1 : ℚ)].map (fun y => 100 / y), items_processed := 0,
        threads_used := 1, memory_allocated := 0, success := false,
        error_message := "Division by zero" } :=
  sequential_failure_spec.1 [(1 : ℚ)] [] 0 div100 (fun y => 100 / y)
    "Division by zero" (defaultConfig 4)
    (by intro y hy; fin_cases hy; rfl) rfl

/-- C3 counterexample: the claim says the partitioner produces exactly
`W = min (max_threads, N)` partitions; for `N = 50`, `max_threads = 8` the
loop `for (i = 0; i < N; i += 6)` creates 9 partitions, not 8
(`0,6,…,42,48`, the last covering only `[48, 50)`). -/
theorem partition_count_cex :
    (partitions 50 (min 8 50)).length = 9 ∧ (9 : Nat) ≠ 8 := by
  constructor
  · decide
  · decide

/-- C3 amended: for input length `N ≥ 1` and declared `max_threads ≥ 1`,
with `W = min (max_threads, N)` workers and chunk size
`chunk = max 1 (N / W)`, the partitioner produces `⌈N / chunk⌉` contiguous
partitions (which can exceed `W`): every partition is `(i, min (i+chunk) N)`,
consecutive partitions abut, the first starts at 0 and the last ends at `N`.
For `N = 50`, `max_threads = 8`: 8 workers but 9 partitions. -/
theorem partitioner_chunks_spec (N mt : Nat) (_hmt : 1 ≤ mt) (hN : 1 ≤ N) :
    (partitions N (min mt N)).length =
      (N + max 1 (N / min mt N) - 1) / max 1 (N / min mt N) ∧
    (∀ p ∈ partitions N (min mt N),
      p.2 = min (p.1 + max 1 (N / min mt N)) N) ∧
    List.Chain' (fun p q => p.2 = q.1) (partitions N (min mt N)) ∧
    (partitions N (min mt N)).head? = some (0, min (max 1 (N / min mt N)) N) ∧
    (∃ p, (partitions N (min mt N)).getLast? = some p ∧ p.2 = N) ∧
    ((partitions 50 (min 8 50)).length = 9 ∧ min 8 50 = 8) := by
  have hc : 0 < max 1 (N / min mt N) :=
    Nat.lt_of_lt_of_le Nat.zero_lt_one (Nat.le_max_left _ _)
  refine ⟨?_, ?_, ?_, ?_, ?_, by decide, by decide⟩
  · rw [partitions, List.length_map, partitionStarts_length hc]
  · intro p hp
    obtain ⟨s, _, rfl⟩ := List.mem_map.mp hp
    rfl
  · rw [partitions, List.chain'_map]
    refine partitionStarts_chain'.imp ?_
    intro a b ⟨hb, hbN⟩
    simp only
    omega
  · rw [partitions, List.head?_map, partitionStarts_head hN]
    simp
  · obtain ⟨s, hs, hsN, hN2⟩ := partitionStarts_getLast hc hN
    refine ⟨(s, min (s + max 1 (N / min mt N)) N), ?_, ?_⟩
    · rw [partitions, List.getLast?_map, hs]
      rfl
    · simp only
      omega

/-- C3 amended, witness: the partition count formula at `N = 7`,
`max_threads = 3` (chunk 2, four partitions). -/
theorem partitioner_chunks_spec_witness :
    (partitions 7 (min 3 7)).length =
      (7 + max 1 (7 / min 3 7) - 1) / max 1 (7 / min 3 7) :=
  (partitioner_chunks_spec 7 3 (by decide) (by decide)).1

/-- C4: for every input length `N ≥ 0` and worker count `W ≥ 1`, the
partitions are pairwise disjoint half-open index ranges and their union
covers `[0, N)` exactly: every `j < N` lies in some partition, and no index
lies in two partitions (and nothing outside `[0, N)` is covered). -/
theorem partitions_disjoint_cover (N W : Nat) (_hW : 1 ≤ W) :
    List.Pairwise
      (fun p q => ∀ j, ¬((p.1 ≤ j ∧ j < p.2) ∧ (q.1 ≤ j ∧ j < q.2)))
      (partitions N W) ∧
    ∀ j, (j < N ↔ ∃ p ∈ partitions N W, p.1 ≤ j ∧ j < p.2) := by
  have hc : 0 < max 1 (N / W) :=
    Nat.lt_of_lt_of_le Nat.zero_lt_one (Nat.le_max_left _ _)
  constructor
  · rw [partitions, List.pairwise_map]
    refine partitionStarts_pairwise.imp ?_
    intro a b hab j hj
    simp only at hj
    have h1 := Nat.min_le_left (a + max 1 (N / W)) N
    omega
  · intro j
    constructor
    · intro hj
      obtain ⟨s, hs, h1, h2⟩ := partitionStarts_cover hc hj
      refine ⟨(s, min (s + max 1 (N / W)) N), List.mem_map_of_mem _ hs, h1, ?_⟩
      simp only
      omega
    · intro ⟨p, hp, h1, h2⟩
      obtain ⟨s, _, rfl⟩ := List.mem_map.mp hp
      simp only at h1 h2
      omega

/-- C4 witness: the disjoint-exact-cover property at `N = 5`, `W = 2`. -/
theorem partitions_disjoint_cover_witness :
    List.Pairwise
      (fun p q => ∀ j, ¬((p.1 ≤ j ∧ j < p.2) ∧ (q.1 ≤ j ∧ j < q.2)))
      (partitions 5 2) ∧
    ∀ j, (j < 5 ↔ ∃ p ∈ partitions 5 2, p.1 ≤ j ∧ j < p.2) :=
  partitions_disjoint_cover 5 2 (by decide)


/-- C5 counterexample: on the empty input the transformation vacuously
succeeds on every element, yet the parallel strategy returns no record at
all: `threads_used = min (max_threads, 0) = 0` and the chunk-size expression
`input.size() / result.threads_used` divides by zero (undefined behavior),
instead of the claimed record with `threads_used = min (max_threads, N)`. -/
theorem parallel_empty_input_cex :
    (∀ x ∈ ([] : List ℚ), div100 x = Except.ok ((fun y => 100 / y) x)) ∧
    process_parallel ([] : List ℚ) div100 cfgParallel4 = none := by
  constructor
  · intro x hx
    exact absurd hx (List.not_mem_nil x)
  · rfl

/-- C5 amended: for every NONEMPTY input on which the transformation
succeeds everywhere (and a positive declared `max_threads`, the only values
the configuration contract admits), the parallel strategy returns
`output[i] = transform(input[i])` at every index,
`threads_used = min (max_threads, N)`, `items_processed = N` and
`success = true`; moreover the output is independent of the order in which
the scheduler runs the partition tasks (any permutation of the chunk list
yields the same output). -/
theorem parallel_success_spec {α β : Type} [Inhabited α] [Inhabited β]
    (input : List α) (func : α → Except String β) (F : α → β)
    (config : ProcessConfig) (hok : ∀ x ∈ input, func x = Except.ok (F x))
    (hne : input ≠ []) (hmt : 1 ≤ config.max_threads) :
    process_parallel input func config =
      some { results := input.map F, items_processed := input.length,
             threads_used := min config.max_threads input.length,
             memory_allocated := 0, success := true, error_message := "" } ∧
    ∀ starts' : List Nat,
      starts'.Perm (partitionStarts input.length
        (max 1 (input.length / min config.max_threads input.length))) →
      runTasks input func
          (max 1 (input.length / min config.max_threads input.length))
          starts' (List.replicate input.length (default : β)) =
        input.map F := by
  have hlen : 0 < input.length := List.length_pos.mpr hne
  have hW : min config.max_threads input.length ≠ 0 := by omega
  constructor
  · exact process_parallel_ok hok hW
  · intro starts' hperm
    exact runTasks_perm_map hok
      (Nat.lt_of_lt_of_le Nat.zero_lt_one (Nat.le_max_left _ _)) hperm

/-- C5 amended, witness: the parallel record on the concrete input `[1, 2]`
with the (everywhere-succeeding there) `100 / x` transformation. -/
theorem parallel_success_spec_witness :
    process_parallel [(1 : ℚ), 2] div100 cfgParallel4 =
      some { results := [(1 : ℚ), 2].map (fun y => 100 / y),
             items_processed := [(1 : ℚ), 2].length,
             threads_used := min cfgParallel4.max_threads [(1 : ℚ), 2].length,
             memory_allocated := 0, success := true, error_message := "" } :=
  (parallel_success_spec [(1 : ℚ), 2] div100 (fun y => 100 / y) cfgParallel4
    (by intro x hx; fin_cases hx <;> rfl) (by decide) (by decide)).1

/-- C6: for every input on which the transformation succeeds everywhere,
the sequential strategy returns `output[i] = transform(input[i])` for all
`i` (in input order), `items_processed = N`, `threads_used = 1` and
`success = true`; and in the scenario `[1..10000]` with the squaring
transformation under the default configuration (any hardware concurrency
`C`), the call reports `items_processed = 10000`, `success = true` and
`output[i] = (i+1)^2`. -/
theorem sequential_success_spec :
    (∀ {α β : Type} (input : List α) (func : α → Except String β)
      (F : α → β) (config : ProcessConfig),
      (∀ x ∈ input, func x = Except.ok (F x)) →
      process_sequential input func config =
        { results := input.map F, items_processed := input.length,
          threads_used := 1, memory_allocated := 0, success := true,
          error_message := "" }) ∧
    (∀ C : Nat, ∃ r : ProcessResult ℤ,
      process C input10000 (defaultConfig C) square = some r ∧
      r.items_processed = 10000 ∧ r.success = true ∧
      r.results = (List.range 10000).map (fun (i : ℕ) => ((i : ℤ) + 1) ^ 2)) := by
  constructor
  · intro α β input func F config hok
    exact process_sequential_ok config hok
  · intro C
    have hlen : input10000.length = 10000 := by
      rw [input10000, List.length_map, List.length_range]
    have hok : ∀ x ∈ input10000, square x = Except.ok ((fun y => y * y) x) :=
      fun _ _ => rfl
    have hmap : input10000.map (fun y => y * y) =
        (List.range 10000).map (fun (i : ℕ) => ((i : ℤ) + 1) ^ 2) := by
      rw [input10000, List.map_map]
      refine List.map_congr_left ?_
      intro i _
      show ((i : ℤ) + 1) * ((i : ℤ) + 1) = ((i : ℤ) + 1) ^ 2
      ring
    have hproc : process C input10000 (defaultConfig C) square =
        process_adaptive C input10000 square (defaultConfig C) := rfl
    have hnotlt : ¬(input10000.length < 1000) := by omega
    by_cases hC : 1 < C
    · have hbranch : process_adaptive C input10000 square (defaultConfig C) =
          process_parallel input10000 square (defaultConfig C) := by
        unfold process_adaptive
        rw [if_neg hnotlt,
          if_pos (⟨by omega, hC⟩ : 1000 ≤ input10000.length ∧ 1 < C)]
      have hW : min (defaultConfig C).max_threads input10000.length ≠ 0 := by
        simp only [defaultConfig]
        omega
      have hpar := process_parallel_ok hok hW
      have hpar2 : process_parallel input10000 square (defaultConfig C) =
          some { results :=
                   (List.range 10000).map (fun (i : ℕ) => ((i : ℤ) + 1) ^ 2),
                 items_processed := 10000,
                 threads_used := min (defaultConfig C).max_threads 10000,
                 memory_allocated := 0, success := true, error_message := "" } :=
        hpar.trans (by rw [hlen, hmap])
      refine ⟨_, hproc.trans (hbranch.trans hpar2), ?_, ?_, ?_⟩
      · with_reducible rfl
      · with_reducible rfl
      · with_reducible rfl
    · have hbranch : process_adaptive C input10000 square (defaultConfig C) =
          some (process_sequential input10000 square (defaultConfig C)) := by
        unfold process_adaptive
        rw [if_neg hnotlt, if_neg (fun h : _ ∧ _ => hC h.2)]
      have hseq := process_sequential_ok (defaultConfig C) hok
      have hseq2 : process_sequential input10000 square (defaultConfig C) =
          { results := (List.range 10000).map (fun (i : ℕ) => ((i : ℤ) + 1) ^ 2),
            items_processed := 10000, threads_used := 1,
            memory_allocated := 0, success := true, error_message := "" } :=
        hseq.trans (by rw [hlen, hmap])
      refine ⟨_, hproc.trans (hbranch.trans (congrArg some hseq2)), ?_, ?_, ?_⟩
      · with_reducible rfl
      · with_reducible rfl
      · with_reducible rfl

/-- C6 witness: the sequential record on the concrete input `[2, 3]` with
the squaring transformation. -/
theorem sequential_success_spec_witness :
    process_sequential [(2 : ℤ), 3] square (defaultConfig 4) =
      { results := [(2 : ℤ), 3].map (fun y => y * y),
        items_processed := [(2 : ℤ), 3].length, threads_used := 1,
        memory_allocated := 0, success := true, error_message := "" } :=
  sequential_success_spec.1 [(2 : ℤ), 3] square (fun y => y * y)
    (defaultConfig 4) (fun _ _ => rfl)


/-- C7 counterexample: the claim says that for `N ≥ 1000` and hardware
concurrency `C > 1` the adaptive strategy delegates to parallel with
`threads_used > 1`.  Delegation does happen, but with a declared
`max_threads = 1` the parallel strategy uses
`threads_used = min (1, 1000) = 1`, not more than 1. -/
theorem adaptive_threads_cex :
    process_adaptive 2 input1000 square cfgAdaptiveMt1 =
      process_parallel input1000 square cfgAdaptiveMt1 ∧
    (∃ r, process_parallel input1000 square cfgAdaptiveMt1 = some r ∧
      r.threads_used = 1) := by
  have hlen : input1000.length = 1000 := by
    rw [input1000, List.length_replicate]
  constructor
  · unfold process_adaptive
    rw [if_neg (by omega), if_pos (⟨by omega, by omega⟩ :
      1000 ≤ input1000.length ∧ 1 < 2)]
  · have hW : min cfgAdaptiveMt1.max_threads input1000.length ≠ 0 := by
      simp only [cfgAdaptiveMt1]
      omega
    refine ⟨_, process_parallel_eq_of_ne_zero hW, ?_⟩
    show min cfgAdaptiveMt1.max_threads input1000.length = 1
    simp only [cfgAdaptiveMt1]
    omega

/-- C7 amended: the adaptive strategy is a pure decision function over input
length `N` and hardware concurrency `C`: for `N < 1000` it delegates to
sequential (`threads_used = 1`); for `N ≥ 1000` with `C > 1` it delegates to
parallel, whose `threads_used = min (max_threads, N)` — bounded by the
declared max and greater than 1 exactly when the declared max is; in every
other case it delegates to sequential. -/
theorem adaptive_delegation_spec {α β : Type} [Inhabited α] [Inhabited β]
    (C : Nat) (input : List α) (func : α → Except String β)
    (config : ProcessConfig) :
    (input.length < 1000 →
      process_adaptive C input func config =
        some (process_sequential input func config) ∧
      (process_sequential input func config).threads_used = 1) ∧
    (1000 ≤ input.length → 1 < C →
      process_adaptive C input func config =
        process_parallel input func config) ∧
    (1000 ≤ input.length → 1 < C → 1 ≤ config.max_threads →
      ∃ r, process_parallel input func config = some r ∧
        r.threads_used = min config.max_threads input.length ∧
        r.threads_used ≤ config.max_threads ∧
        (1 < config.max_threads → 1 < r.threads_used)) ∧
    (1000 ≤ input.length → C ≤ 1 →
      process_adaptive C input func config =
        some (process_sequential input func config)) := by
  refine ⟨?_, ?_, ?_, ?_⟩
  · intro hlt
    constructor
    · unfold process_adaptive
      rw [if_pos hlt]
    · exact process_sequential_threads_used config
  · intro hge hC
    unfold process_adaptive
    rw [if_neg (by omega), if_pos ⟨hge, hC⟩]
  · intro hge _hC hmt
    have hW : min config.max_threads input.length ≠ 0 := by omega
    refine ⟨_, process_parallel_eq_of_ne_zero hW, ?_, ?_, ?_⟩
    · with_reducible rfl
    · show min config.max_threads input.length ≤ config.max_threads
      exact Nat.min_le_left _ _
    · intro hmt2
      show 1 < min config.max_threads input.length
      omega
  · intro hge hC
    unfold process_adaptive
    rw [if_neg (by omega), if_neg (fun h : _ ∧ _ => by omega)]

/-- C7 amended, witness: the sequential branch at `N = 1 < 1000` and the
parallel branch (with its `threads_used` bound) at `N = 1000`, `C = 2`,
`max_threads = 4`. -/
theorem adaptive_delegation_spec_witness :
    (process_adaptive 0 [(1 : ℤ)] square (defaultConfig 0) =
      some (process_sequential [(1 : ℤ)] square (defaultConfig 0))) ∧
    (process_adaptive 2 input1000 square (defaultConfig 4) =
      process_parallel input1000 square (defaultConfig 4)) ∧
    (∃ r, process_parallel input1000 square (defaultConfig 4) = some r ∧
      r.threads_used = min (defaultConfig 4).max_threads input1000.length ∧
      r.threads_used ≤ (defaultConfig 4).max_threads ∧
      (1 < (defaultConfig 4).max_threads → 1 < r.threads_used)) := by
  have hlen : input1000.length = 1000 := by
    rw [input1000, List.length_replicate]
  refine ⟨((adaptive_delegation_spec 0 [(1 : ℤ)] square (defaultConfig 0)).1
      (by decide)).1, ?_, ?_⟩
  · exact (adaptive_delegation_spec 2 input1000 square
      (defaultConfig 4)).2.1 (by omega) (by decide)
  · exact (adaptive_delegation_spec 2 input1000 square
      (defaultConfig 4)).2.2.1 (by omega) (by decide) (by decide)

/-- C8 counterexample: on the empty input the claim requires
`threads_used = 0` under every strategy; the sequential strategy reports
`threads_used = 1`, and the parallel strategy returns no record at all (its
chunk-size computation divides by zero). -/
theorem empty_input_cex :
    (process_sequential ([] : List ℚ) div100 (defaultConfig 4)).threads_used
        = 1 ∧
    (1 : Nat) ≠ 0 ∧
    process_parallel ([] : List ℚ) div100 (defaultConfig 4) = none := by
  refine ⟨rfl, by decide, rfl⟩

/-- C8 amended: on the empty input the sequential strategy performs zero
work and returns `items_processed = 0`, `success = true` and an empty
output — but `threads_used = 1`, not `0`; the adaptive strategy delegates
to sequential and returns the same record; the parallel strategy's
chunk-size computation divides `0 / 0` (undefined behavior) and returns no
record. -/
theorem empty_input_spec {α β : Type} [Inhabited α] [Inhabited β]
    (func : α → Except String β) (config : ProcessConfig) (C : Nat) :
    process_sequential ([] : List α) func config =
      { results := ([] : List β), items_processed := 0, threads_used := 1,
        memory_allocated := 0, success := true, error_message := "" } ∧
    process_parallel ([] : List α) func config = none ∧
    process_adaptive C ([] : List α) func config =
      some { results := ([] : List β), items_processed := 0,
             threads_used := 1, memory_allocated := 0, success := true,
             error_message := "" } := by
  have hseq : process_sequential ([] : List α) func config =
      { results := ([] : List β), items_processed := 0, threads_used := 1,
        memory_allocated := 0, success := true, error_message := "" } :=
    process_sequential_ok (F := fun _ => (default : β)) config (by simp)
  refine ⟨hseq, ?_, ?_⟩
  · exact process_parallel_none (by simp)
  · show some (process_sequential ([] : List α) func config) = _
    rw [hseq]

/-- C9 counterexample: with the empty input and a pure transformation, the
Sequential policy returns a record (with empty output) but the Parallel
policy returns no record at all (division by zero in the chunk-size
computation), so the strategies' outputs are not all equal. -/
theorem strategy_outputs_empty_cex :
    process 4 ([] : List ℚ) cfgParallel4 div100 = none ∧
    (process 4 ([] : List ℚ) cfgSequential4 div100).isSome = true := by
  exact ⟨rfl, rfl⟩

/-- C9 amended: for every NONEMPTY input, every transformation that
succeeds on all its elements, every hardware concurrency and every declared
`max_threads ≥ 1`, the four concurrency policies all return records whose
output sequences are equal (all are `input.map transform`); the model is
deterministic, so repeated calls trivially agree. -/
theorem strategy_outputs_equal_spec {α β : Type} [Inhabited α] [Inhabited β]
    (input : List α) (func : α → Except String β) (F : α → β)
    (C mt : Nat) (hok : ∀ x ∈ input, func x = Except.ok (F x))
    (hne : input ≠ []) (hmt : 1 ≤ mt) :
    ∃ rS rP rT rA : ProcessResult β,
      process C input (cfgWith ConcurrencyPolicy.Sequential mt) func
        = some rS ∧
      process C input (cfgWith ConcurrencyPolicy.Parallel mt) func
        = some rP ∧
      process C input (cfgWith ConcurrencyPolicy.ThreadPool mt) func
        = some rT ∧
      process C input (cfgWith ConcurrencyPolicy.Adaptive mt) func
        = some rA ∧
      rS.results = input.map F ∧ rP.results = input.map F ∧
      rT.results = input.map F ∧ rA.results = input.map F := by
  have hlen : 0 < input.length := List.length_pos.mpr hne
  have hW : ∀ p : ConcurrencyPolicy,
      min (cfgWith p mt).max_threads input.length ≠ 0 := by
    intro p
    show min mt input.length ≠ 0
    omega
  have hseq := process_sequential_ok
    (cfgWith ConcurrencyPolicy.Sequential mt) hok
  have hpar := process_parallel_ok hok (hW ConcurrencyPolicy.Parallel)
  have htp := process_parallel_ok hok (hW ConcurrencyPolicy.ThreadPool)
  have hsA := process_sequential_ok
    (cfgWith ConcurrencyPolicy.Adaptive mt) hok
  have hpA := process_parallel_ok hok (hW ConcurrencyPolicy.Adaptive)
  have hA : ∃ rA : ProcessResult β,
      process C input (cfgWith ConcurrencyPolicy.Adaptive mt) func
        = some rA ∧ rA.results = input.map F := by
    show ∃ rA, process_adaptive C input func _ = some rA ∧ _
    unfold process_adaptive
    by_cases h1 : input.length < 1000
    · rw [if_pos h1]
      exact ⟨_, rfl, by rw [hsA]⟩
    · rw [if_neg h1]
      by_cases h2 : 1000 ≤ input.length ∧ 1 < C
      · rw [if_pos h2]
        exact ⟨_, hpA, by with_reducible rfl⟩
      · rw [if_neg h2]
        exact ⟨_, rfl, by rw [hsA]⟩
  obtain ⟨rA, hrA, hrAres⟩ := hA
  exact ⟨_, _, _, rA,
    congrArg some hseq, hpar, htp, hrA,
    by with_reducible rfl, by with_reducible rfl, by with_reducible rfl, hrAres⟩

/-- C9 amended, witness: all four policies on the concrete input `[1, 2]`
with the (everywhere-succeeding there) `100 / x` transformation. -/
theorem strategy_outputs_equal_spec_witness :
    ∃ rS rP rT rA : ProcessResult ℚ,
      process 2 [(1 : ℚ), 2] (cfgWith ConcurrencyPolicy.Sequential 4) div100
        = some rS ∧
      process 2 [(1 : ℚ), 2] (cfgWith ConcurrencyPolicy.Parallel 4) div100
        = some rP ∧
      process 2 [(1 : ℚ), 2] (cfgWith ConcurrencyPolicy.ThreadPool 4) div100
        = some rT ∧
      process 2 [(1 : ℚ), 2] (cfgWith ConcurrencyPolicy.Adaptive 4) div100
        = some rA ∧
      rS.results = [(1 : ℚ), 2].map (fun y => 100 / y) ∧
      rP.results = [(1 : ℚ), 2].map (fun y => 100 / y) ∧
      rT.results = [(1 : ℚ), 2].map (fun y => 100 / y) ∧
      rA.results = [(1 : ℚ), 2].map (fun y => 100 / y) :=
  strategy_outputs_equal_spec [(1 : ℚ), 2] div100 (fun y => 100 / y) 2 4
    (by intro x hx; fin_cases hx <;> rfl) (by decide) (by decide)

/-- C10: every record any strategy of `process` returns with
`success = true` has `items_processed` equal to the input length and exactly
one output per input element. -/
theorem success_invariant {α β : Type} [Inhabited α] [Inhabited β]
    (C : Nat) (input : List α) (config : ProcessConfig)
    (func : α → Except String β) (r : ProcessResult β)
    (hr : process C input config func = some r) (hs : r.success = true) :
    r.items_processed = input.length ∧ r.results.length = input.length := by
  have hseq : ∀ hr2 : some (process_sequential input func config) = some r,
      r.items_processed = input.length ∧ r.results.length = input.length := by
    intro hr2
    have := Option.some.inj hr2
    subst this
    exact process_sequential_success_inv hs
  unfold process at hr
  cases hcc : config.concurrency with
  | Sequential =>
    rw [hcc] at hr
    exact hseq hr
  | Parallel =>
    rw [hcc] at hr
    exact process_parallel_some_inv hr
  | ThreadPool =>
    rw [hcc] at hr
    exact process_parallel_some_inv hr
  | Adaptive =>
    rw [hcc] at hr
    unfold process_adaptive at hr
    by_cases h1 : input.length < 1000
    · rw [if_pos h1] at hr
      exact hseq hr
    · rw [if_neg h1] at hr
      by_cases h2 : 1000 ≤ input.length ∧ 1 < C
      · rw [if_pos h2] at hr
        exact process_parallel_some_inv hr
      · rw [if_neg h2] at hr
        exact hseq hr

/-- C10 witness: the invariant at a concrete successful sequential call. -/
theorem success_invariant_witness :
    process 1 [(1 : ℚ)] cfgSequential4 div100 =
      some { results := [100], items_processed := 1, threads_used := 1,
             memory_allocated := 0, success := true, error_message := "" } ∧
    ({ results := [100], items_processed := 1, threads_used := 1,
       memory_allocated := 0, success := true,
       error_message := "" } : ProcessResult ℚ).success = true ∧
    (({ results := [100], items_processed := 1, threads_used := 1,
        memory_allocated := 0, success := true,
        error_message := "" } : ProcessResult ℚ).items_processed = 1 ∧
     ({ results := [100], items_processed := 1, threads_used := 1,
        memory_allocated := 0, success := true,
        error_message := "" } : ProcessResult ℚ).results.length = 1) := by
  have h1 : process 1 [(1 : ℚ)] cfgSequential4 div100 =
      some { results := [100], items_processed := 1, threads_used := 1,
             memory_allocated := 0, success := true, error_message := "" } := by
    show some (process_sequential [(1 : ℚ)] div100 cfgSequential4) = _
    rw [process_sequential_ok (F := fun y => (100 : ℚ) / y) cfgSequential4
      (by intro x hx; fin_cases hx; rfl)]
    norm_num
  exact ⟨h1, rfl, success_invariant 1 [(1 : ℚ)] cfgSequential4 div100 _ h1 rfl⟩

end DeclarativeCompute
